import Mathlib

/-!
Verification of the gradient-synchronization layer of
`horovod/tensorflow/__init__.py` (DistributedOptimizer, allreduce,
BroadcastGlobalVariablesHook, PostStepHook).

The development has four layers, each a shallow embedding of one aspect of
the source:

* a value-level, cross-rank model of the collective reduction performed by
  the python function `allreduce` (dense tensors as lists of rationals,
  sparse tensors as IndexedSlices triples);
* a graph-construction model of `DistributedOptimizer.compute_gradients`
  (tensors carried as name/shape descriptors, the collective calls issued
  during graph construction recorded as a trace, `tf.get_variable` duplicate
  detection as an `Except`);
* models of the two session hooks (`BroadcastGlobalVariablesHook.begin`,
  `PostStepHook.after_run`);
* a step-by-step trace of the deferred double-buffer protocol
  (`grad_r`, `grad_c`, the flip executed by `PostStepHook` after each step).
-/

namespace Horovod

/-- A runtime tensor value: a dense numeric array, or a `tf.IndexedSlices`
sparse value `(values, indices, dense_shape)`.  Numeric entries are modelled
as rationals so that the `average` division is exact. -/
inductive TensorV where
  | dense (xs : List ℚ) : TensorV
  | sparse (values : List ℚ) (indices : List ℤ) (denseShape : List ℕ) : TensorV
deriving DecidableEq, Repr

/-- Dense payload of a tensor (junk `[]` on a sparse tensor; theorems only
apply it to dense tensors). -/
def denseOf : TensorV → List ℚ
  | TensorV.dense xs => xs
  | TensorV.sparse _ _ _ => []

/-- Values payload of a sparse tensor. -/
def valuesOf : TensorV → List ℚ
  | TensorV.dense _ => []
  | TensorV.sparse v _ _ => v

/-- Indices payload of a sparse tensor. -/
def indicesOf : TensorV → List ℤ
  | TensorV.dense _ => []
  | TensorV.sparse _ i _ => i

/-- Element-wise sum of two equally shaped dense arrays. -/
def addVec (a b : List ℚ) : List ℚ := List.zipWith (· + ·) a b

/-- Element-wise sum of a family of equally shaped dense arrays, one per
rank. -/
def sumVec : List (List ℚ) → List ℚ
  | [] => []
  | [v] => v
  | v :: vs => addVec v (sumVec vs)

/-- Modelled from the spec: `allreduce(tensor) -> tensor` of the external
collective-communication service (`horovod.tensorflow.mpi_ops._allreduce`,
not under `src/`) — element-wise sum across all ranks, identical shape
required on every rank.  `contribs` lists the per-rank inputs. -/
def mpiAllreduce (contribs : List (List ℚ)) : List ℚ := sumVec contribs

/-- Modelled from the spec: `allgather(tensor) -> tensor` of the external
collective-communication service (`horovod.tensorflow.mpi_ops.allgather`,
not under `src/`) — concatenation across ranks along the leading dimension,
in rank order. -/
def mpiAllgather {α : Type} (contribs : List (List α)) : List α := contribs.flatten

/-- Cross-rank semantics of the python function `allreduce` (lines 50-86 of
the source), seen from rank `r`.  `ranks` lists every rank's input tensor;
the group size `size()` is the number of ranks.  Mirrors the source:
sparse inputs go through two allgathers (values, then indices) and keep the
local `dense_shape`; dense inputs go through the summing `_allreduce`; in
both cases `average` divides by the group size.  The `device_dense` /
`device_sparse` placement hints of the source do not affect the value and
are omitted here (they reappear in the graph-level model's call trace). -/
def allreduceVal (average : Bool) (ranks : List TensorV) (r : ℕ) : TensorV :=
  match ranks.getD r (TensorV.dense []) with
  | TensorV.sparse _ _ denseShape =>
      let horovodSize : ℚ := (ranks.length : ℚ)
      let values := mpiAllgather (ranks.map valuesOf)
      let indices := mpiAllgather (ranks.map indicesOf)
      let newValues := if average then values.map (fun x => x / horovodSize) else values
      TensorV.sparse newValues indices denseShape
  | TensorV.dense _ =>
      let horovodSize : ℚ := (ranks.length : ℚ)
      let summed := mpiAllreduce (ranks.map denseOf)
      TensorV.dense (if average then summed.map (fun x => x / horovodSize) else summed)

/-! ### Graph-construction model of `DistributedOptimizer.compute_gradients`

TF1 graph construction depends only on tensor metadata (names, shapes,
sparsity), never on runtime values, so the graph-level model carries tensors
as name/kind descriptors.  The collective operations created during
construction are recorded in a trace, in creation order; `tf.get_variable`
is modelled with its default-scope behaviour of raising a fatal error when a
variable of the requested name already exists. -/

/-- Static kind of a gradient tensor: dense with `m` elements, or an
`IndexedSlices` with `nv` values and `ni` indices. -/
inductive TKind where
  | dense (m : ℕ) : TKind
  | sparse (nv ni : ℕ) : TKind
deriving DecidableEq, Repr

/-- A graph tensor: its TF name and its kind. -/
structure GTensor where
  name : String
  kind : TKind
deriving DecidableEq, Repr

/-- A collective operation created in the graph, identified by its kind and
the (static) element count it is issued over. -/
inductive CollCall where
  | allreduceCall (m : ℕ) : CollCall
  | allgatherCall (n : ℕ) : CollCall
deriving DecidableEq, Repr

/-- Graph-construction state: the variables created so far by
`tf.get_variable`, the `tf.GraphKeys.UPDATE_OPS` collection, the
`GraphKeys.GRAD_FLIP_OPS` collection, and the trace of collective calls in
creation order.  Collection entries record assignments as
`(target variable name, source tensor name)`. -/
structure GraphState where
  varNames : List String
  updateOps : List (String × String)
  flipOps : List (String × String)
  calls : List CollCall
deriving DecidableEq, Repr

/-- Python `str.split(':')`: cut a character list at every colon, keeping
empty pieces, so that the number of pieces is one more than the number of
colons. -/
def splitOnColon : List Char → List (List Char)
  | [] => [[]]
  | c :: cs =>
    if c = ':' then [] :: splitOnColon cs
    else
      match splitOnColon cs with
      | [] => [[c]]
      | x :: xs => (c :: x) :: xs

/-- The name transformation `''.join(grad.name.split(':')[:-1])` applied to
a gradient's TF name to derive the deferred buffer names: drop the final
`:<output-index>` piece and concatenate the rest. -/
def stripPort (s : String) : String :=
  String.mk (((splitOnColon s.data).dropLast).flatten)

/-- `tf.get_variable(name, shape, ...)` under the default variable scope:
creating a variable whose name already exists raises a fatal `ValueError`
at graph-construction time; otherwise the variable is created and
registered. -/
def getVariable (name : String) (kind : TKind) (st : GraphState) :
    Except String (GTensor × GraphState) :=
  if name ∈ st.varNames then
    Except.error ("Variable " ++ name ++ " already exists")
  else
    Except.ok (⟨name, kind⟩, { st with varNames := st.varNames ++ [name] })

/-- Graph-level effect of the python function `allreduce`: a sparse input
creates two allgather ops (values first, then indices); a dense input
creates one allreduce op.  The result tensor keeps the input's kind (the
value-level result is `allreduceVal`). -/
def allreduceG (t : GTensor) (st : GraphState) : GTensor × GraphState :=
  match t.kind with
  | TKind.sparse nv ni =>
      (⟨t.name ++ "/gathered", TKind.sparse nv ni⟩,
        { st with calls := st.calls ++ [CollCall.allgatherCall nv, CollCall.allgatherCall ni] })
  | TKind.dense m =>
      (⟨t.name ++ "/reduced", TKind.dense m⟩,
        { st with calls := st.calls ++ [CollCall.allreduceCall m] })

/-- Body of the per-gradient loop of `compute_gradients` (source lines
209-230).  An absent gradient is kept as `(None, var)` untouched.  In
deferred mode two zero-initialized buffers `<grad>_r` and `<grad>_c` are
created with `tf.get_variable`, the allreduce is issued over `grad_r`, the
assignment `grad_c := grad` joins `UPDATE_OPS` and the flip
`grad_r := grad_c` joins `GRAD_FLIP_OPS`; in immediate mode the allreduce
is issued over the gradient itself. -/
def processGrad (deferred : Bool) (g : Option GTensor × String) (st : GraphState) :
    Except String ((Option GTensor × String) × GraphState) :=
  match g with
  | (none, v) => Except.ok ((none, v), st)
  | (some grad, v) =>
    if deferred then
      match getVariable (stripPort grad.name ++ "_r") grad.kind st with
      | Except.error e => Except.error e
      | Except.ok (gradR, st1) =>
        match getVariable (stripPort grad.name ++ "_c") grad.kind st1 with
        | Except.error e => Except.error e
        | Except.ok (gradC, st2) =>
          let rs := allreduceG gradR st2
          let st4 := { rs.2 with updateOps := rs.2.updateOps ++ [(gradC.name, grad.name)] }
          let st5 := { st4 with flipOps := st4.flipOps ++ [(gradR.name, gradC.name)] }
          Except.ok ((some rs.1, v), st5)
    else
      let rs := allreduceG grad st
      Except.ok ((some rs.1, v), rs.2)

/-- The `for grad, var in gradients` loop of `compute_gradients`,
rebuilding the output list in input order. -/
def computeGradientsLoop (deferred : Bool) :
    List (Option GTensor × String) → GraphState →
    Except String (List (Option GTensor × String) × GraphState)
  | [], st => Except.ok ([], st)
  | g :: gs, st =>
    match processGrad deferred g st with
    | Except.error e => Except.error e
    | Except.ok (o, st1) =>
      match computeGradientsLoop deferred gs st1 with
      | Except.error e => Except.error e
      | Except.ok (outs, st2) => Except.ok (o :: outs, st2)

/-- `DistributedOptimizer.compute_gradients` (lines 196-233): the base
optimizer's gradient list is the `gradients` argument; with `size() > 1`
every pair is processed by the loop, otherwise the list is returned
unchanged with no graph construction at all. -/
def computeGradients (n : ℕ) (deferred : Bool)
    (gradients : List (Option GTensor × String)) (st : GraphState) :
    Except String (List (Option GTensor × String) × GraphState) :=
  if 1 < n then computeGradientsLoop deferred gradients st
  else Except.ok (gradients, st)

/-- Collective calls the graph-level `allreduce` creates for a tensor of a
given kind. -/
def kindCalls : TKind → List CollCall
  | TKind.dense m => [CollCall.allreduceCall m]
  | TKind.sparse nv ni => [CollCall.allgatherCall nv, CollCall.allgatherCall ni]

/-- Collective calls a single gradient pair contributes to the trace.  The
deferred path issues its allreduce over a buffer of the gradient's own
shape, so the calls are the same in both modes; an absent gradient
contributes none. -/
def itemCalls (g : Option GTensor × String) : List CollCall :=
  match g with
  | (none, _) => []
  | (some grad, _) => kindCalls grad.kind

/-- Flip instructions a single gradient pair registers into
`GRAD_FLIP_OPS`: exactly one, `(grad_r, grad_c)`, for a present gradient in
deferred mode. -/
def itemFlips (deferred : Bool) (g : Option GTensor × String) : List (String × String) :=
  match g with
  | (none, _) => []
  | (some grad, _) =>
    if deferred then
      [(stripPort grad.name ++ "_r", stripPort grad.name ++ "_c")]
    else []

/-- Whether an `Except` computation succeeded. -/
def isOkB {ε α : Type} : Except ε α → Bool
  | Except.ok _ => true
  | Except.error _ => false

/-! ### The session hooks -/

/-- A `session.run` performed by a hook; the only one this layer performs
is running the grouped flip ops. -/
inductive RunCall where
  | runGroup (ops : List (String × String)) : RunCall
deriving DecidableEq, Repr

/-- `PostStepHook.__init__` (lines 143-151): the hook captures the
`GRAD_FLIP_OPS` collection of the graph and groups it. -/
structure PostStepHook where
  gradFlipOps : List (String × String)
deriving DecidableEq, Repr

/-- Build a `PostStepHook` over a constructed graph. -/
def mkPostStepHook (st : GraphState) : PostStepHook := ⟨st.flipOps⟩

/-- `PostStepHook.after_run` (lines 153-155): run the grouped flip ops in
one `session.run` call, but only when at least one flip op was collected.
The returned list is the sequence of `session.run` calls performed. -/
def afterRun (h : PostStepHook) : List RunCall :=
  if 0 < h.gradFlipOps.length then [RunCall.runGroup h.gradFlipOps] else []

/-- The batched broadcast operation built by `broadcast_global_variables`:
it belongs to a graph and holds one `assign(var, broadcast(var, root))` per
global variable. -/
structure BcastOp where
  graphId : ℕ
  assigns : List (String × ℕ)
deriving DecidableEq, Repr

/-- `broadcast_global_variables(root_rank)` (lines 89-97), built inside the
graph `graphId` over the given global variables. -/
def broadcastGlobalVariables (graphId : ℕ) (globalVars : List String) (rootRank : ℕ) :
    BcastOp :=
  ⟨graphId, globalVars.map (fun v => (v, rootRank))⟩

/-- `BroadcastGlobalVariablesHook` state: the root rank and the cached
batched broadcast op (`None` until `begin` first runs). -/
structure BcastHook where
  rootRank : ℕ
  bcastOp : Option BcastOp
deriving DecidableEq, Repr

/-- `BroadcastGlobalVariablesHook.begin` (lines 125-129): rebuild the
batched broadcast only when no op is cached or the cached op belongs to a
graph other than the current default graph; otherwise reuse the cache. -/
def hookBegin (curGraph : ℕ) (globalVars : List String) (h : BcastHook) : BcastHook :=
  match h.bcastOp with
  | none =>
      { h with bcastOp := some (broadcastGlobalVariables curGraph globalVars h.rootRank) }
  | some op =>
      if op.graphId ≠ curGraph then
        { h with bcastOp := some (broadcastGlobalVariables curGraph globalVars h.rootRank) }
      else h

/-! ### Runtime trace of the deferred double-buffer protocol

In deferred mode each rank owns, per variable, the buffers `grad_r`
(pending: the value being reduced this step) and `grad_c` (staged: the most
recent local gradient).  During step `t` the graph executes
`grad_c.assign(grad)` (via `UPDATE_OPS`) and reads `grad_r` into the
allreduce; after the step `PostStepHook.after_run` executes the flip
`grad_r.assign(grad_c)`.  A boundary state is the state observed when a
step's computation has finished and `after_run` is about to execute the
flip. -/

/-- Per-rank deferred buffers for one variable. -/
structure DeferredState where
  pending : List ℚ
  staged : List ℚ
deriving DecidableEq, Repr

/-- Buffers as created by `tf.get_variable` with
`tf.constant_initializer(0)`. -/
def initDeferred (shape : ℕ) : DeferredState :=
  ⟨List.replicate shape 0, List.replicate shape 0⟩

/-- In-step effect on every rank's buffers: `grad_c.assign(grad)` stores the
rank's local gradient in the staged buffer; the pending buffer is not
written during the step.  `locals` lists the per-rank local gradients. -/
def computePhase (locals : List (List ℚ)) (sts : List DeferredState) :
    List DeferredState :=
  List.zipWith (fun g s => (⟨s.pending, g⟩ : DeferredState)) locals sts

/-- Post-step flip executed by `PostStepHook`: `grad_r.assign(grad_c)` on
every rank. -/
def flipPhase (sts : List DeferredState) : List DeferredState :=
  sts.map (fun s => (⟨s.staged, s.staged⟩ : DeferredState))

/-- The averaging allreduce issued over the pending buffers (the deferred
path calls `allreduce(grad_r, ...)` with the default `average=True`). -/
def reduceDense (contribs : List (List ℚ)) : List ℚ :=
  denseOf (allreduceVal true (contribs.map TensorV.dense) 0)

/-- Trace of a deferred run: the gradient returned by `compute_gradients`
(and applied) at each step — identical on every rank, being a collective
result — and the boundary state of every rank's buffers at each step. -/
structure DeferredTrace where
  returned : List (List ℚ)
  boundaries : List (List DeferredState)
deriving DecidableEq, Repr

/-- Execute the deferred protocol step by step from buffer states `sts`,
consuming one per-rank family of local gradients per step: the step stores
the local gradients (`computePhase`), the reduction of the pending buffers
is the gradient returned for the step, and the flip runs after the step. -/
def runDeferred (sts : List DeferredState) : List (List (List ℚ)) → DeferredTrace
  | [] => ⟨[], []⟩
  | g :: rest =>
    let b := computePhase g sts
    let tr := runDeferred (flipPhase b) rest
    ⟨reduceDense (b.map (fun s => s.pending)) :: tr.returned, b :: tr.boundaries⟩

/-- The deferred trace of a fresh optimizer: `n` ranks, every buffer
zero-initialized with `shape` elements. -/
def deferredTrace (n shape : ℕ) (locs : List (List (List ℚ))) : DeferredTrace :=
  runDeferred (List.replicate n (initDeferred shape)) locs

/-! ### Supporting lemmas -/

/-- Length of an element-wise sum of equally shaped arrays. -/
theorem sumVec_length (ts : List (List ℚ)) (m : ℕ)
    (hne : ts ≠ []) (hm : ∀ v ∈ ts, v.length = m) : (sumVec ts).length = m := by
  induction ts with
  | nil => exact absurd rfl hne
  | cons v vs ih =>
    cases vs with
    | nil => simpa using hm v (by simp)
    | cons w ws =>
      have hv : v.length = m := hm v (by simp)
      have hrec : (sumVec (w :: ws)).length = m := by
        refine ih (by simp) ?_
        intro u hu
        exact hm u (List.mem_cons_of_mem v hu)
      simp [sumVec, addVec, hv, hrec]

/-- Entry `i` of an element-wise sum is the sum of entries `i`. -/
theorem sumVec_getD (ts : List (List ℚ)) (m i : ℕ)
    (hne : ts ≠ []) (hm : ∀ v ∈ ts, v.length = m) (hi : i < m) :
    (sumVec ts).getD i 0 = (ts.map (fun v => v.getD i 0)).sum := by
  induction ts with
  | nil => exact absurd rfl hne
  | cons v vs ih =>
    cases vs with
    | nil => simp [sumVec]
    | cons w ws =>
      have hv : v.length = m := hm v (by simp)
      have hlen : (sumVec (w :: ws)).length = m := by
        refine sumVec_length _ m (by simp) ?_
        intro u hu
        exact hm u (List.mem_cons_of_mem v hu)
      have hrec : (sumVec (w :: ws)).getD i 0
          = ((w :: ws).map (fun v => v.getD i 0)).sum := by
        refine ih (by simp) ?_
        intro u hu
        exact hm u (List.mem_cons_of_mem v hu)
      have hiv : i < v.length := hv ▸ hi
      have his : i < (sumVec (w :: ws)).length := hlen ▸ hi
      have hzip : (addVec v (sumVec (w :: ws))).getD i 0
          = v.getD i 0 + (sumVec (w :: ws)).getD i 0 := by
        have hmin : i < (List.zipWith (· + ·) v (sumVec (w :: ws))).length := by
          simp [List.length_zipWith]
          exact ⟨hiv, his⟩
        rw [addVec, List.getD_eq_getElem _ _ hmin, List.getElem_zipWith,
          List.getD_eq_getElem _ _ hiv, List.getD_eq_getElem _ _ his]
      calc (sumVec (v :: w :: ws)).getD i 0
          = (addVec v (sumVec (w :: ws))).getD i 0 := rfl
        _ = v.getD i 0 + (sumVec (w :: ws)).getD i 0 := hzip
        _ = v.getD i 0 + ((w :: ws).map (fun v => v.getD i 0)).sum := by rw [hrec]
        _ = ((v :: w :: ws).map (fun v => v.getD i 0)).sum := by simp

/-- The graph-level `allreduce` only appends its collective calls to the
state. -/
theorem allreduceG_snd (t : GTensor) (st : GraphState) :
    (allreduceG t st).2 = { st with calls := st.calls ++ kindCalls t.kind } := by
  obtain ⟨name, kind⟩ := t
  cases kind <;> simp [allreduceG, kindCalls]

/-- Successful `tf.get_variable`: the name was fresh, the returned tensor
carries it, and the state only gains that name. -/
theorem getVariable_ok (name : String) (kind : TKind) (st : GraphState)
    (t : GTensor) (st' : GraphState)
    (h : getVariable name kind st = Except.ok (t, st')) :
    t = ⟨name, kind⟩ ∧ st' = { st with varNames := st.varNames ++ [name] }
      ∧ name ∉ st.varNames := by
  by_cases hm : name ∈ st.varNames <;> simp [getVariable, hm] at h
  exact ⟨h.1.symm, h.2.symm, hm⟩

/-- The per-flip registry entries of one gradient pair have pairwise
distinct targets (there is at most one). -/
theorem itemFlips_nodup (d : Bool) (g : Option GTensor × String) :
    ((itemFlips d g).map Prod.fst).Nodup := by
  obtain ⟨og, v⟩ := g
  cases og <;> cases d <;> simp [itemFlips]

/-- Specification of a successful `processGrad`: the variable of the pair
is preserved; the call trace grows by exactly the item's calls; the flip
registry grows by exactly the item's flips; created variable names are
kept; an absent gradient leaves everything untouched; and every flip
registered by the item targets a buffer that was fresh before the item ran
and exists afterwards. -/
theorem processGrad_ok_spec (d : Bool) (g : Option GTensor × String)
    (st : GraphState) (o : Option GTensor × String) (st1 : GraphState)
    (h : processGrad d g st = Except.ok (o, st1)) :
    o.2 = g.2
    ∧ st1.calls = st.calls ++ itemCalls g
    ∧ st1.flipOps = st.flipOps ++ itemFlips d g
    ∧ (∀ x ∈ st.varNames, x ∈ st1.varNames)
    ∧ (g.1 = none → o = g ∧ st1 = st)
    ∧ (∀ p ∈ itemFlips d g, p.1 ∈ st1.varNames ∧ p.1 ∉ st.varNames) := by
  obtain ⟨og, v⟩ := g
  cases og with
  | none =>
    simp only [processGrad] at h
    obtain ⟨ho, hst⟩ : o = (none, v) ∧ st1 = st := by
      simpa [eq_comm] using h
    subst ho; subst hst
    simp [itemCalls, itemFlips]
  | some grad =>
    cases d with
    | false =>
      simp only [processGrad, Bool.false_eq_true, if_false] at h
      obtain ⟨ho, hst⟩ : o = (some (allreduceG grad st).1, v) ∧ st1 = (allreduceG grad st).2 := by
        simpa [eq_comm] using h
      subst ho; subst hst
      simp [allreduceG_snd, itemCalls, itemFlips]
    | true =>
      simp only [processGrad, if_true] at h
      cases hr : getVariable (stripPort grad.name ++ "_r") grad.kind st with
      | error e => rw [hr] at h; simp at h
      | ok pr =>
        obtain ⟨gradR, stA⟩ := pr
        rw [hr] at h
        dsimp only at h
        cases hc : getVariable (stripPort grad.name ++ "_c") grad.kind stA with
        | error e => rw [hc] at h; simp at h
        | ok pc =>
          obtain ⟨gradC, stB⟩ := pc
          rw [hc] at h
          dsimp only at h
          simp only [Except.ok.injEq, Prod.mk.injEq] at h
          obtain ⟨rfl, rfl⟩ := h
          obtain ⟨hgR, hstA, hfreshR⟩ := getVariable_ok _ _ _ _ _ hr
          obtain ⟨hgC, hstB, hfreshC⟩ := getVariable_ok _ _ _ _ _ hc
          subst hgR; subst hgC; subst hstA; subst hstB
          refine ⟨rfl, ?_, ?_, ?_, by simp, ?_⟩
          · simp [allreduceG_snd, itemCalls]
          · simp [allreduceG_snd, itemFlips]
          · intro x hx
            simp [allreduceG_snd, hx]
          · intro p hp
            simp [itemFlips] at hp
            subst hp
            constructor
            · simp [allreduceG_snd]
            · simpa using hfreshR

/-- Specification of a successful `computeGradientsLoop` run.  The output
list pairs the reduced gradients with the input variables in input order;
the collective-call trace extends the incoming trace by each item's calls,
in input-list order; the flip registry extends likewise; absent gradients
are returned untouched in place; and every flip registered during the run
targets a buffer that was fresh before the run and registered after it. -/
theorem loop_ok_spec : ∀ (d : Bool) (gs : List (Option GTensor × String))
    (st : GraphState) (outs : List (Option GTensor × String)) (st' : GraphState),
    computeGradientsLoop d gs st = Except.ok (outs, st') →
    outs.length = gs.length
    ∧ (∀ i, (outs.getD i (none, "")).2 = (gs.getD i (none, "")).2)
    ∧ st'.calls = st.calls ++ (gs.map itemCalls).flatten
    ∧ st'.flipOps = st.flipOps ++ (gs.map (itemFlips d)).flatten
    ∧ (∀ x ∈ st.varNames, x ∈ st'.varNames)
    ∧ (∀ i, (gs.getD i (none, "")).1 = none →
        outs.getD i (none, "") = gs.getD i (none, ""))
    ∧ (∀ g ∈ gs, ∀ p ∈ itemFlips d g, p.1 ∈ st'.varNames ∧ p.1 ∉ st.varNames)
  | d, [], st, outs, st', h => by
    obtain ⟨ho, hst⟩ : outs = [] ∧ st' = st := by
      simpa [computeGradientsLoop, eq_comm] using h
    subst ho; subst hst
    simp
  | d, g :: gs, st, outs, st', h => by
    simp only [computeGradientsLoop] at h
    cases hp : processGrad d g st with
    | error e => rw [hp] at h; simp at h
    | ok po =>
      obtain ⟨o, st1⟩ := po
      rw [hp] at h
      dsimp only at h
      cases hl : computeGradientsLoop d gs st1 with
      | error e => rw [hl] at h; simp at h
      | ok pl =>
        obtain ⟨outs2, st2⟩ := pl
        rw [hl] at h
        dsimp only at h
        simp only [Except.ok.injEq, Prod.mk.injEq] at h
        obtain ⟨ho, hst⟩ := h
        subst ho; subst hst
        obtain ⟨hvar, hcalls, hflips, hnames, hnone, hfresh⟩ :=
          processGrad_ok_spec d g st o st1 hp
        obtain ⟨ihlen, ihvar, ihcalls, ihflips, ihnames, ihnone, ihfresh⟩ :=
          loop_ok_spec d gs st1 outs2 st2 hl
        refine ⟨by simp [ihlen], ?_, ?_, ?_, ?_, ?_, ?_⟩
        · intro i
          cases i with
          | zero => simpa using hvar
          | succ j => simpa using ihvar j
        · rw [ihcalls, hcalls]
          simp
        · rw [ihflips, hflips]
          simp
        · intro x hx
          exact ihnames x (hnames x hx)
        · intro i
          cases i with
          | zero =>
            intro hg
            simpa using (hnone hg).1
          | succ j =>
            intro hg
            simpa using ihnone j (by simpa using hg)
        · intro g' hg' p hpmem
          rcases List.mem_cons.mp hg' with hhead | htail
          · subst hhead
            exact ⟨ihnames _ (hfresh p hpmem).1, (hfresh p hpmem).2⟩
          · obtain ⟨hin, hnotin⟩ := ihfresh g' htail p hpmem
            exact ⟨hin, fun hst => hnotin (hnames _ hst)⟩

/-- A gradient list with every gradient absent passes through the loop
untouched, at any group size, with no error and no state change. -/
theorem loop_all_none : ∀ (d : Bool) (gs : List (Option GTensor × String))
    (st : GraphState), (∀ g ∈ gs, g.1 = none) →
    computeGradientsLoop d gs st = Except.ok (gs, st)
  | d, [], st, _ => rfl
  | d, (og, v) :: gs, st, hall => by
    have hog : og = none := hall (og, v) (by simp)
    subst hog
    have := loop_all_none d gs st (fun g hg => hall g (List.mem_cons_of_mem _ hg))
    simp [computeGradientsLoop, processGrad, this]

/-- `processGrad` preserves the invariant that every registered flip
targets an existing buffer variable and no two flips target the same
buffer. -/
theorem processGrad_names_inv (d : Bool) (g : Option GTensor × String)
    (st : GraphState) (o : Option GTensor × String) (st1 : GraphState)
    (h : processGrad d g st = Except.ok (o, st1))
    (hmem : ∀ p ∈ st.flipOps, p.1 ∈ st.varNames)
    (hnd : (st.flipOps.map Prod.fst).Nodup) :
    (∀ p ∈ st1.flipOps, p.1 ∈ st1.varNames)
      ∧ (st1.flipOps.map Prod.fst).Nodup := by
  obtain ⟨-, -, hflips, hnames, -, hfresh⟩ := processGrad_ok_spec d g st o st1 h
  constructor
  · intro p hp
    rw [hflips] at hp
    rcases List.mem_append.mp hp with hold | hnew
    · exact hnames _ (hmem p hold)
    · exact (hfresh p hnew).1
  · rw [hflips, List.map_append]
    refine List.Nodup.append hnd (itemFlips_nodup d g) ?_
    intro x hxold hxnew
    obtain ⟨p, hp, hpx⟩ := List.mem_map.mp hxold
    obtain ⟨q, hq, hqx⟩ := List.mem_map.mp hxnew
    apply (hfresh q hq).2
    rw [hqx, ← hpx]
    exact hmem p hp

/-- The loop preserves the same registry invariant. -/
theorem loop_names_inv : ∀ (d : Bool) (gs : List (Option GTensor × String))
    (st : GraphState) (outs : List (Option GTensor × String)) (st' : GraphState),
    computeGradientsLoop d gs st = Except.ok (outs, st') →
    (∀ p ∈ st.flipOps, p.1 ∈ st.varNames) →
    (st.flipOps.map Prod.fst).Nodup →
    (∀ p ∈ st'.flipOps, p.1 ∈ st'.varNames)
      ∧ (st'.flipOps.map Prod.fst).Nodup
  | d, [], st, outs, st', h, hmem, hnd => by
    obtain ⟨ho, hst⟩ : outs = [] ∧ st' = st := by
      simpa [computeGradientsLoop, eq_comm] using h
    subst hst
    exact ⟨hmem, hnd⟩
  | d, g :: gs, st, outs, st', h, hmem, hnd => by
    simp only [computeGradientsLoop] at h
    cases hp : processGrad d g st with
    | error e => rw [hp] at h; simp at h
    | ok po =>
      obtain ⟨o, st1⟩ := po
      rw [hp] at h
      dsimp only at h
      cases hl : computeGradientsLoop d gs st1 with
      | error e => rw [hl] at h; simp at h
      | ok pl =>
        obtain ⟨outs2, st2⟩ := pl
        rw [hl] at h
        dsimp only at h
        simp only [Except.ok.injEq, Prod.mk.injEq] at h
        obtain ⟨ho, hst⟩ := h
        subst hst
        obtain ⟨hmem1, hnd1⟩ := processGrad_names_inv d g st o st1 hp hmem hnd
        exact loop_names_inv d gs st1 outs2 st2 hl hmem1 hnd1

/-- A successful loop run never reuses a buffer name: every present
gradient's pending-buffer name was absent from the variable store when the
run began. -/
theorem loop_fresh_of_ok (d : Bool) (gs : List (Option GTensor × String))
    (st : GraphState) (outs : List (Option GTensor × String)) (st' : GraphState)
    (h : computeGradientsLoop d gs st = Except.ok (outs, st'))
    (hd : d = true) (g : Option GTensor × String) (hg : g ∈ gs)
    (grad : GTensor) (hgrad : g.1 = some grad) :
    stripPort grad.name ++ "_r" ∉ st.varNames
      ∧ stripPort grad.name ++ "_r" ∈ st'.varNames := by
  obtain ⟨-, -, -, -, -, -, hfresh⟩ := loop_ok_spec d gs st outs st' h
  have hpmem : (stripPort grad.name ++ "_r", stripPort grad.name ++ "_c") ∈ itemFlips d g := by
    obtain ⟨og, v⟩ := g
    simp only at hgrad
    subst hgrad
    simp [itemFlips, hd]
  obtain ⟨hin, hnotin⟩ := hfresh g hg _ hpmem
  exact ⟨hnotin, hin⟩

/-- `computePhase` keeps one state per rank. -/
theorem computePhase_length (g : List (List ℚ)) (sts : List DeferredState)
    (h : g.length = sts.length) : (computePhase g sts).length = sts.length := by
  simp [computePhase, h]

/-- `flipPhase` keeps one state per rank. -/
theorem flipPhase_length (sts : List DeferredState) :
    (flipPhase sts).length = sts.length := by
  simp [flipPhase]

/-- After the in-step assignments, the staged buffers hold exactly the
step's local gradients, rank by rank. -/
theorem computePhase_staged : ∀ (g : List (List ℚ)) (sts : List DeferredState),
    g.length = sts.length → (computePhase g sts).map (fun s => s.staged) = g
  | [], _, _ => by simp [computePhase]
  | a :: as, [], h => by simp at h
  | a :: as, s :: ss, h => by
    have := computePhase_staged as ss (by simpa using h)
    simp [computePhase] at this ⊢
    exact this

/-- The in-step assignments leave the pending buffers untouched. -/
theorem computePhase_pending : ∀ (g : List (List ℚ)) (sts : List DeferredState),
    g.length = sts.length →
    (computePhase g sts).map (fun s => s.pending) = sts.map (fun s => s.pending)
  | [], [], _ => by simp [computePhase]
  | [], _ :: _, h => by simp at h
  | a :: as, [], h => by simp at h
  | a :: as, s :: ss, h => by
    have := computePhase_pending as ss (by simpa using h)
    simp [computePhase] at this ⊢
    exact this

/-- The flip copies the staged buffers into the pending buffers. -/
theorem flipPhase_pending (sts : List DeferredState) :
    (flipPhase sts).map (fun s => s.pending) = sts.map (fun s => s.staged) := by
  simp [flipPhase, List.map_map]

/-- The trace has one boundary state per step. -/
theorem runDeferred_boundaries_length : ∀ (locs : List (List (List ℚ)))
    (sts : List DeferredState),
    (runDeferred sts locs).boundaries.length = locs.length
  | [], _ => by simp [runDeferred]
  | g :: rest, sts => by
    simp [runDeferred, runDeferred_boundaries_length rest]

/-- The gradient returned at step `t` is the averaging reduction of the
pending buffers in step `t`'s boundary state. -/
theorem runDeferred_returned_getD : ∀ (locs : List (List (List ℚ)))
    (sts : List DeferredState) (t : ℕ), t < locs.length →
    (runDeferred sts locs).returned.getD t [] =
      reduceDense (((runDeferred sts locs).boundaries.getD t []).map (fun s => s.pending))
  | [], _, t, ht => by simp at ht
  | g :: rest, sts, 0, _ => by simp [runDeferred]
  | g :: rest, sts, t + 1, ht => by
    simp only [runDeferred, List.getD_cons_succ]
    exact runDeferred_returned_getD rest _ t (by simpa using ht)

/-- At step `t`'s boundary the staged buffers hold step `t`'s local
gradients. -/
theorem runDeferred_boundaries_staged : ∀ (locs : List (List (List ℚ)))
    (sts : List DeferredState) (n : ℕ), sts.length = n → (∀ l ∈ locs, l.length = n) →
    ∀ t, t < locs.length →
    ((runDeferred sts locs).boundaries.getD t []).map (fun s => s.staged) = locs.getD t []
  | [], _, _, _, _, t, ht => by simp at ht
  | g :: rest, sts, n, hsts, hl, 0, _ => by
    simp only [runDeferred, List.getD_cons_zero]
    exact computePhase_staged g sts (by rw [hsts]; exact hl g (by simp))
  | g :: rest, sts, n, hsts, hl, t + 1, ht => by
    have hg : g.length = sts.length := by rw [hsts]; exact hl g (by simp)
    have hlen : (flipPhase (computePhase g sts)).length = n := by
      rw [flipPhase_length, computePhase_length g sts hg, hsts]
    simp only [runDeferred, List.getD_cons_succ]
    exact runDeferred_boundaries_staged rest _ n hlen
      (fun l hl' => hl l (List.mem_cons_of_mem g hl')) t (by simpa using ht)

/-- One-step staleness of the buffers: at step `t+1`'s boundary the pending
buffers hold exactly what the staged buffers held at step `t`'s boundary. -/
theorem runDeferred_boundaries_pending : ∀ (locs : List (List (List ℚ)))
    (sts : List DeferredState) (n : ℕ), sts.length = n → (∀ l ∈ locs, l.length = n) →
    ∀ t, t + 1 < locs.length →
    ((runDeferred sts locs).boundaries.getD (t + 1) []).map (fun s => s.pending)
      = ((runDeferred sts locs).boundaries.getD t []).map (fun s => s.staged)
  | [], _, _, _, _, t, ht => by simp at ht
  | [g], _, _, _, _, t, ht => by simp at ht
  | g :: g' :: rest, sts, n, hsts, hl, 0, _ => by
    have hg : g.length = sts.length := by rw [hsts]; exact hl g (by simp)
    have hg' : g'.length = n := hl g' (by simp)
    have hlen : (flipPhase (computePhase g sts)).length = n := by
      rw [flipPhase_length, computePhase_length g sts hg, hsts]
    simp only [runDeferred, List.getD_cons_succ, List.getD_cons_zero]
    rw [computePhase_pending g' _ (by rw [hlen, hg'])]
    exact flipPhase_pending (computePhase g sts)
  | g :: g' :: rest, sts, n, hsts, hl, t + 1, ht => by
    have hg : g.length = sts.length := by rw [hsts]; exact hl g (by simp)
    have hlen : (flipPhase (computePhase g sts)).length = n := by
      rw [flipPhase_length, computePhase_length g sts hg, hsts]
    simp only [runDeferred, List.getD_cons_succ]
    exact runDeferred_boundaries_pending (g' :: rest) _ n hlen
      (fun l hl' => hl l (List.mem_cons_of_mem g hl')) t (by simpa using ht)

/-- Indexing into a family of dense tensors always yields a dense tensor
(the default is dense). -/
theorem getD_map_dense (ranks : List (List ℚ)) (r : ℕ) :
    (ranks.map TensorV.dense).getD r (TensorV.dense []) = TensorV.dense (ranks.getD r []) := by
  rcases lt_or_ge r ranks.length with hlt | hge
  · rw [List.getD_eq_getElem _ _ (by simpa using hlt), List.getD_eq_getElem _ _ hlt,
      List.getElem_map]
  · rw [List.getD_eq_default _ _ (by simpa using hge), List.getD_eq_default _ _ hge]

/-- Element-wise sum of two zero arrays. -/
theorem addVec_zero (m : ℕ) :
    addVec (List.replicate m (0:ℚ)) (List.replicate m 0) = List.replicate m 0 := by
  induction m with
  | zero => rfl
  | succ j ih =>
    rw [List.replicate_succ]
    show (0 + 0 : ℚ) :: addVec (List.replicate j 0) (List.replicate j 0) = _
    rw [ih, add_zero]

/-- The element-wise sum of any positive number of zero arrays is the zero
array. -/
theorem sumVec_replicate_zero : ∀ (k m : ℕ), 0 < k →
    sumVec (List.replicate k (List.replicate m (0:ℚ))) = List.replicate m 0
  | 0, _, hk => absurd hk (by simp)
  | 1, m, _ => by simp [sumVec]
  | k + 2, m, _ => by
    have ih := sumVec_replicate_zero (k + 1) m (Nat.succ_pos k)
    rw [List.replicate_succ] at ih ⊢
    rw [List.replicate_succ]
    show addVec (List.replicate m 0)
      (sumVec (List.replicate m 0 :: List.replicate k (List.replicate m 0))) = _
    rw [ih]
    exact addVec_zero m

/-- An absent gradient contributes no collective call. -/
theorem itemCalls_none (g : Option GTensor × String) (h : g.1 = none) :
    itemCalls g = [] := by
  obtain ⟨og, v⟩ := g
  cases og with
  | none => rfl
  | some t => simp at h

/-! ### The claims -/

/-- Claim C2: with group size 1, `DistributedOptimizer.compute_gradients`
returns the base optimizer's gradient list exactly as it received it —
dense, sparse and absent gradients alike, in either mode — and the graph
state, in particular its collective-call trace, is untouched: no collective
call is issued. -/
theorem size_one_passthrough (deferred : Bool)
    (gradients : List (Option GTensor × String)) (st : GraphState) :
    computeGradients 1 deferred gradients st = Except.ok (gradients, st) := rfl

/-- Claim C3: for a group of `N` dense per-rank gradients of a common
shape, the value `allreduce` produces is, element by element,
`(Σ g_i) / N` when `average=true` and the plain element-wise sum `Σ g_i`
when `average=false`. -/
theorem allreduce_dense_sum_avg (ranks : List (List ℚ)) (m r : ℕ) (average : Bool)
    (hne : ranks ≠ []) (hm : ∀ v ∈ ranks, v.length = m) :
    (denseOf (allreduceVal average (ranks.map TensorV.dense) r)).length = m
    ∧ ∀ i < m, (denseOf (allreduceVal average (ranks.map TensorV.dense) r)).getD i 0
        = if average then (ranks.map (fun v => v.getD i 0)).sum / (ranks.length : ℚ)
          else (ranks.map (fun v => v.getD i 0)).sum := by
  have hval : allreduceVal average (ranks.map TensorV.dense) r
      = TensorV.dense (if average
          then (sumVec ranks).map (fun x => x / (ranks.length : ℚ))
          else sumVec ranks) := by
    unfold allreduceVal
    rw [getD_map_dense]
    simp only [mpiAllreduce, List.map_map, List.length_map]
    have hmaps : ranks.map (denseOf ∘ TensorV.dense) = ranks := by
      simp [Function.comp_def, denseOf]
    rw [hmaps]
  rw [hval]
  have hlen : (sumVec ranks).length = m := sumVec_length ranks m hne hm
  constructor
  · cases average <;> simp [denseOf, hlen]
  · intro i hi
    have hgd := sumVec_getD ranks m i hne hm hi
    cases average with
    | false => simpa [denseOf] using hgd
    | true =>
      have hi' : i < (sumVec ranks).length := hlen ▸ hi
      simp only [denseOf, if_true]
      rw [List.getD_eq_getElem _ _ (by simpa using hi'), List.getElem_map,
        ← List.getD_eq_getElem _ _ hi', hgd]

/-- Witness for C3 at a concrete two-rank group. -/
theorem allreduce_dense_sum_avg_witness :
    (denseOf (allreduceVal true ([[(1:ℚ), 2], [3, 4]].map TensorV.dense) 0)).length = 2
    ∧ (denseOf (allreduceVal true ([[(1:ℚ), 2], [3, 4]].map TensorV.dense) 0)).getD 0 0
        = if true then ([[(1:ℚ), 2], [3, 4]].map (fun v => v.getD 0 0)).sum
            / (([[(1:ℚ), 2], [3, 4]] : List (List ℚ)).length : ℚ)
          else ([[(1:ℚ), 2], [3, 4]].map (fun v => v.getD 0 0)).sum := by
  have h := allreduce_dense_sum_avg [[(1:ℚ), 2], [3, 4]] 2 0 true (by simp)
    (by intro v hv; fin_cases hv <;> rfl)
  exact ⟨h.1, h.2 0 (by norm_num)⟩

/-- Claim C4: for `N` ranks contributing sparse gradients
`(values_i, indices_i)` with a common `dense_shape`, the reduced sparse
value concatenates all `indices_i` in rank order with no deduplication,
concatenates all `values_i` in rank order (each divided by `N` when
`average=true`), and keeps the input `dense_shape` unchanged. -/
theorem allreduce_sparse_concat (pairs : List (List ℚ × List ℤ)) (sh : List ℕ)
    (r : ℕ) (average : Bool) (hr : r < pairs.length) :
    allreduceVal average (pairs.map (fun p => TensorV.sparse p.1 p.2 sh)) r
      = TensorV.sparse
          ((pairs.map (fun p =>
              if average then p.1.map (fun x => x / (pairs.length : ℚ)) else p.1)).flatten)
          ((pairs.map (fun p => p.2)).flatten)
          sh := by
  have hr' : r < (pairs.map (fun p => TensorV.sparse p.1 p.2 sh)).length := by
    simpa using hr
  unfold allreduceVal
  rw [List.getD_eq_getElem _ _ hr', List.getElem_map]
  cases average with
  | false =>
    simp [mpiAllgather, List.map_map, Function.comp_def, valuesOf, indicesOf]
  | true =>
    simp only [mpiAllgather, List.map_map, List.length_map, if_true]
    rw [List.map_flatten]
    simp [List.map_map, Function.comp_def, valuesOf, indicesOf]

/-- Witness for C4 at a concrete two-rank group with a repeated index. -/
theorem allreduce_sparse_concat_witness :
    allreduceVal true
        ([([(1:ℚ)], [(0:ℤ)]), ([2], [0])].map (fun p => TensorV.sparse p.1 p.2 [3])) 0
      = TensorV.sparse
          (([([(1:ℚ)], [(0:ℤ)]), ([2], [0])].map (fun p =>
              if true then
                p.1.map (fun x =>
                  x / (([([(1:ℚ)], [(0:ℤ)]), ([2], [0])] : List (List ℚ × List ℤ)).length : ℚ))
              else p.1)).flatten)
          (([([(1:ℚ)], [(0:ℤ)]), ([2], [0])].map (fun p => p.2)).flatten)
          [3] :=
  allreduce_sparse_concat [([(1:ℚ)], [(0:ℤ)]), ([2], [0])] [3] 0 true (by norm_num)

/-- Claim C7: a `PostStepHook` built over a graph with no registered flip
instruction performs no `session.run` at all in `after_run` — in
particular no collective or synchronization call; with at least one flip
registered, `after_run` performs exactly one `session.run` executing all
registered flips as one batch. -/
theorem post_step_noop_or_batch (st : GraphState) :
    (st.flipOps = [] → afterRun (mkPostStepHook st) = [])
    ∧ (st.flipOps ≠ [] → afterRun (mkPostStepHook st) = [RunCall.runGroup st.flipOps]) := by
  constructor
  · intro h
    simp [afterRun, mkPostStepHook, h]
  · intro h
    simp [afterRun, mkPostStepHook, List.length_pos.mpr h]

/-- Witness for C7: an empty registry runs nothing, a one-flip registry
runs the whole batch once. -/
theorem post_step_noop_or_batch_witness :
    afterRun (mkPostStepHook ⟨[], [], [], []⟩) = []
    ∧ afterRun (mkPostStepHook ⟨[], [], [("g_r", "g_c")], []⟩)
        = [RunCall.runGroup [("g_r", "g_c")]] :=
  ⟨(post_step_noop_or_batch ⟨[], [], [], []⟩).1 rfl,
   (post_step_noop_or_batch ⟨[], [], [("g_r", "g_c")], []⟩).2 (by simp)⟩

/-- Claim C9: re-invoking `begin` after the batched broadcast has been
built for the current graph is a no-op — the cached op is reused and no
new broadcast is built, whatever global-variable set is now visible —
while invoking it under a different graph rebuilds the batched op for that
graph instead of reusing the stale one. -/
theorem bcast_hook_rebind (g g' : ℕ) (vars vars' : List String) (h : BcastHook)
    (hne : g' ≠ g) :
    hookBegin g vars' (hookBegin g vars h) = hookBegin g vars h
    ∧ hookBegin g' vars' (hookBegin g vars h)
        = { rootRank := h.rootRank,
            bcastOp := some (broadcastGlobalVariables g' vars' h.rootRank) } := by
  obtain ⟨root, obc⟩ := h
  cases obc with
  | none =>
    constructor
    · simp [hookBegin, broadcastGlobalVariables]
    · simp [hookBegin, broadcastGlobalVariables, hne.symm]
  | some op =>
    by_cases hg : op.graphId = g
    · constructor
      · simp [hookBegin, broadcastGlobalVariables, hg]
      · simp [hookBegin, broadcastGlobalVariables, hg, hne.symm]
    · constructor
      · simp [hookBegin, broadcastGlobalVariables, hg]
      · simp [hookBegin, broadcastGlobalVariables, hg, hne.symm]

/-- Witness for C9: a hook bound to graph 0 stays bound on a second
`begin` in graph 0 and rebuilds in graph 1. -/
theorem bcast_hook_rebind_witness :
    hookBegin 0 ["b"] (hookBegin 0 ["a"] ⟨7, none⟩) = hookBegin 0 ["a"] ⟨7, none⟩
    ∧ hookBegin 1 ["b"] (hookBegin 0 ["a"] ⟨7, none⟩)
        = { rootRank := 7, bcastOp := some (broadcastGlobalVariables 1 ["b"] 7) } :=
  bcast_hook_rebind 0 1 ["a"] ["b"] ⟨7, none⟩ (by norm_num)

/-- Claim C5: a successful `compute_gradients` returns one pair per input
pair with the i-th output keeping the i-th input's variable (order and
pairing preserved), and with `size() > 1` the collective calls are issued
in exactly input-list order: the trace appended to the graph is the
concatenation of each item's calls in that order.  The trace is thereby a
function of the gradient list alone, so every rank constructing the same
model issues the identical call sequence. -/
theorem compute_gradients_order (n : ℕ) (d : Bool)
    (gradients outs : List (Option GTensor × String)) (st st' : GraphState)
    (h : computeGradients n d gradients st = Except.ok (outs, st')) :
    outs.length = gradients.length
    ∧ (∀ i, (outs.getD i (none, "")).2 = (gradients.getD i (none, "")).2)
    ∧ (1 < n → st'.calls = st.calls ++ (gradients.map itemCalls).flatten) := by
  by_cases hn : 1 < n
  · rw [computeGradients, if_pos hn] at h
    obtain ⟨h1, h2, h3, -, -, -, -⟩ := loop_ok_spec d gradients st outs st' h
    exact ⟨h1, h2, fun _ => h3⟩
  · rw [computeGradients, if_neg hn] at h
    obtain ⟨rfl, rfl⟩ : gradients = outs ∧ st = st' := by simpa using h
    exact ⟨rfl, fun i => rfl, fun hc => absurd hc hn⟩

/-- Witness for C5: a three-item run (dense, absent, sparse) at group
size 2 in immediate mode. -/
theorem compute_gradients_order_witness :
    ([(some (⟨"g:0/reduced", TKind.dense 2⟩ : GTensor), "v1"), (none, "v2"),
        (some ⟨"h:0/gathered", TKind.sparse 3 1⟩, "v3")] :
      List (Option GTensor × String)).length
      = ([(some (⟨"g:0", TKind.dense 2⟩ : GTensor), "v1"), (none, "v2"),
          (some ⟨"h:0", TKind.sparse 3 1⟩, "v3")] :
        List (Option GTensor × String)).length
    ∧ (([(some (⟨"g:0/reduced", TKind.dense 2⟩ : GTensor), "v1"), (none, "v2"),
          (some ⟨"h:0/gathered", TKind.sparse 3 1⟩, "v3")] :
        List (Option GTensor × String)).getD 0 (none, "")).2
      = (([(some (⟨"g:0", TKind.dense 2⟩ : GTensor), "v1"), (none, "v2"),
          (some ⟨"h:0", TKind.sparse 3 1⟩, "v3")] :
        List (Option GTensor × String)).getD 0 (none, "")).2
    ∧ (⟨[], [], [],
          [CollCall.allreduceCall 2, CollCall.allgatherCall 3, CollCall.allgatherCall 1]⟩ :
        GraphState).calls
      = (⟨[], [], [], []⟩ : GraphState).calls
        ++ (([(some (⟨"g:0", TKind.dense 2⟩ : GTensor), "v1"), (none, "v2"),
            (some ⟨"h:0", TKind.sparse 3 1⟩, "v3")] :
          List (Option GTensor × String)).map itemCalls).flatten := by
  have h := compute_gradients_order 2 false
    [(some ⟨"g:0", TKind.dense 2⟩, "v1"), (none, "v2"),
      (some ⟨"h:0", TKind.sparse 3 1⟩, "v3")]
    [(some ⟨"g:0/reduced", TKind.dense 2⟩, "v1"), (none, "v2"),
      (some ⟨"h:0/gathered", TKind.sparse 3 1⟩, "v3")]
    ⟨[], [], [], []⟩
    ⟨[], [], [], [CollCall.allreduceCall 2, CollCall.allgatherCall 3, CollCall.allgatherCall 1]⟩
    rfl
  exact ⟨h.1, h.2.1 0, h.2.2 (by norm_num)⟩

/-- Claim C6: an absent gradient is passed through in place as
`(absent, variable)` and contributes no collective call; it is never
treated as an error — a gradient list that is absent everywhere succeeds
untouched at every group size. -/
theorem absent_gradient_passthrough (n : ℕ) (d : Bool)
    (gradients outs : List (Option GTensor × String)) (st st' : GraphState) (i : ℕ)
    (h : computeGradients n d gradients st = Except.ok (outs, st')) :
    ((gradients.getD i (none, "")).1 = none →
      outs.getD i (none, "") = gradients.getD i (none, "")
        ∧ itemCalls (gradients.getD i (none, "")) = [])
    ∧ ((∀ g ∈ gradients, g.1 = none) →
        ∀ m : ℕ, computeGradients m d gradients st = Except.ok (gradients, st)) := by
  constructor
  · intro hnone
    refine ⟨?_, itemCalls_none _ hnone⟩
    by_cases hn : 1 < n
    · rw [computeGradients, if_pos hn] at h
      exact (loop_ok_spec d gradients st outs st' h).2.2.2.2.2.1 i hnone
    · rw [computeGradients, if_neg hn] at h
      obtain ⟨rfl, rfl⟩ : gradients = outs ∧ st = st' := by simpa using h
      rfl
  · intro hall m
    rw [computeGradients]
    by_cases hm : 1 < m
    · rw [if_pos hm]
      exact loop_all_none d gradients st hall
    · rw [if_neg hm]

/-- Witness for C6: a single absent gradient at group size 2, and the
same list succeeding untouched at group size 5. -/
theorem absent_gradient_passthrough_witness :
    ([((none : Option GTensor), "v")] : List (Option GTensor × String)).getD 0 (none, "")
      = ([((none : Option GTensor), "v")] : List (Option GTensor × String)).getD 0 (none, "")
    ∧ itemCalls (([((none : Option GTensor), "v")] :
        List (Option GTensor × String)).getD 0 (none, "")) = []
    ∧ computeGradients 5 false [((none : Option GTensor), "v")] ⟨[], [], [], []⟩
        = Except.ok ([((none : Option GTensor), "v")], ⟨[], [], [], []⟩) := by
  have h := absent_gradient_passthrough 2 false [((none : Option GTensor), "v")]
    [((none : Option GTensor), "v")] ⟨[], [], [], []⟩ ⟨[], [], [], []⟩ 0 rfl
  exact ⟨(h.1 rfl).1, (h.1 rfl).2, h.2 (by intro g hg; fin_cases hg; rfl) 5⟩

/-- Claim C8: in deferred mode a successful `compute_gradients` registers
exactly one flip instruction per present gradient — the registry is
exactly the per-item flips in input order, with pairwise distinct buffer
targets — and attempting the construction again over the same gradients,
which would register a second flip for buffers that already have one,
fails with the fatal duplicate-variable error at construction time. -/
theorem flip_registered_once (n : ℕ)
    (gradients outs : List (Option GTensor × String)) (st st' : GraphState)
    (hn : 1 < n)
    (h : computeGradients n true gradients st = Except.ok (outs, st'))
    (hflip : st.flipOps = [])
    (hsome : ∃ g ∈ gradients, g.1 ≠ none) :
    st'.flipOps = (gradients.map (itemFlips true)).flatten
    ∧ (st'.flipOps.map Prod.fst).Nodup
    ∧ isOkB (computeGradients n true gradients st') = false := by
  rw [computeGradients, if_pos hn] at h
  obtain ⟨-, -, -, hflips, -, -, -⟩ := loop_ok_spec true gradients st outs st' h
  have hnd := loop_names_inv true gradients st outs st' h
    (by rw [hflip]; intro p hp; simp at hp) (by rw [hflip]; simp)
  obtain ⟨g, hg, hgne⟩ := hsome
  obtain ⟨grad, hgrad⟩ := Option.ne_none_iff_exists'.mp hgne
  have hreg := (loop_fresh_of_ok true gradients st outs st' h rfl g hg grad hgrad).2
  refine ⟨by rw [hflips, hflip, List.nil_append], hnd.2, ?_⟩
  rw [computeGradients, if_pos hn]
  cases h2 : computeGradientsLoop true gradients st' with
  | error e => rfl
  | ok pr =>
    obtain ⟨outs2, st2⟩ := pr
    exact absurd hreg (loop_fresh_of_ok true gradients st' outs2 st2 h2 rfl g hg grad hgrad).1

/-- Witness for C8: one deferred dense gradient at group size 2; the first
construction registers the single flip `(g_r, g_c)` and a second
construction fails. -/
theorem flip_registered_once_witness :
    (⟨["g_r", "g_c"], [("g_c", "g:0")], [("g_r", "g_c")],
        [CollCall.allreduceCall 1]⟩ : GraphState).flipOps
      = (([(some (⟨"g:0", TKind.dense 1⟩ : GTensor), "v")] :
          List (Option GTensor × String)).map (itemFlips true)).flatten
    ∧ ((⟨["g_r", "g_c"], [("g_c", "g:0")], [("g_r", "g_c")],
          [CollCall.allreduceCall 1]⟩ : GraphState).flipOps.map Prod.fst).Nodup
    ∧ isOkB (computeGradients 2 true
          [(some (⟨"g:0", TKind.dense 1⟩ : GTensor), "v")]
          ⟨["g_r", "g_c"], [("g_c", "g:0")], [("g_r", "g_c")],
            [CollCall.allreduceCall 1]⟩) = false :=
  flip_registered_once 2 [(some ⟨"g:0", TKind.dense 1⟩, "v")]
    [(some ⟨"g_r/reduced", TKind.dense 1⟩, "v")] ⟨[], [], [], []⟩
    ⟨["g_r", "g_c"], [("g_c", "g:0")], [("g_r", "g_c")], [CollCall.allreduceCall 1]⟩
    (by norm_num) rfl rfl
    ⟨(some ⟨"g:0", TKind.dense 1⟩, "v"), by simp, by simp⟩

/-- Claim C1: in deferred mode with group size above 1, the gradient
`compute_gradients` returns (and the training loop applies) at step `t`
is the averaging collective reduction of all ranks' locally computed
gradients from step `t-1`; and at every step boundary (observed as
`PostStepHook.after_run` is entered, before the flip executes) the pending
buffers hold exactly what the staged buffers held at the previous step
boundary. -/
theorem deferred_one_step_stale (n shape : ℕ) (locs : List (List (List ℚ))) (t : ℕ)
    (_hn : 1 < n) (hlen : ∀ l ∈ locs, l.length = n)
    (h1 : 1 ≤ t) (ht : t < locs.length) :
    (deferredTrace n shape locs).returned.getD t []
        = reduceDense (locs.getD (t - 1) [])
    ∧ ((deferredTrace n shape locs).boundaries.getD t []).map (fun s => s.pending)
        = ((deferredTrace n shape locs).boundaries.getD (t - 1) []).map (fun s => s.staged) := by
  obtain ⟨s, rfl⟩ : ∃ s, t = s + 1 := ⟨t - 1, by omega⟩
  have hsts : (List.replicate n (initDeferred shape)).length = n := by simp
  have hpend := runDeferred_boundaries_pending locs
    (List.replicate n (initDeferred shape)) n hsts hlen s ht
  have hstag := runDeferred_boundaries_staged locs
    (List.replicate n (initDeferred shape)) n hsts hlen s (by omega)
  have hret := runDeferred_returned_getD locs
    (List.replicate n (initDeferred shape)) (s + 1) ht
  constructor
  · rw [deferredTrace, hret, hpend, Nat.add_sub_cancel, hstag]
  · rw [deferredTrace, Nat.add_sub_cancel]
    exact hpend

/-- Witness for C1: two ranks, two steps with distinct local gradients;
step 2 returns the reduction of step 1's gradients and the boundary
buffers show the one-step staleness. -/
theorem deferred_one_step_stale_witness :
    (deferredTrace 2 1 [[[(1:ℚ)], [2]], [[3], [5]]]).returned.getD 1 []
        = reduceDense ([[[(1:ℚ)], [2]], [[3], [5]]].getD 0 [])
    ∧ ((deferredTrace 2 1 [[[(1:ℚ)], [2]], [[3], [5]]]).boundaries.getD 1 []).map
          (fun s => s.pending)
        = ((deferredTrace 2 1 [[[(1:ℚ)], [2]], [[3], [5]]]).boundaries.getD 0 []).map
          (fun s => s.staged) :=
  deferred_one_step_stale 2 1 [[[(1:ℚ)], [2]], [[3], [5]]] 1 (by norm_num)
    (by intro l hl; fin_cases hl <;> rfl) (by norm_num) (by norm_num)

/-- Claim C10: in deferred mode with group size above 1, the gradient
returned at the very first step is the reduction of the zero-initialized
pending buffers — the all-zero gradient — whatever the locally computed
gradients are. -/
theorem deferred_first_step_zero (n shape : ℕ) (locs : List (List (List ℚ)))
    (hn : 1 < n) (hne : locs ≠ []) (h0 : (locs.getD 0 []).length = n) :
    (deferredTrace n shape locs).returned.getD 0 [] = List.replicate shape 0 := by
  obtain ⟨l0, rest, rfl⟩ : ∃ l0 rest, locs = l0 :: rest := by
    cases locs with
    | nil => exact absurd rfl hne
    | cons a b => exact ⟨a, b, rfl⟩
  have hn0 : 0 < n := by omega
  have hl0 : l0.length = n := by simpa using h0
  rw [deferredTrace]
  have hb : (runDeferred (List.replicate n (initDeferred shape)) (l0 :: rest)).returned.getD 0 []
      = reduceDense ((computePhase l0 (List.replicate n (initDeferred shape))).map
          (fun s => s.pending)) := by
    simp [runDeferred]
  rw [hb, computePhase_pending l0 _ (by simp [hl0])]
  have hmap : (List.replicate n (initDeferred shape)).map (fun s => s.pending)
      = List.replicate n (List.replicate shape 0) := by
    simp [initDeferred]
  rw [hmap]
  unfold reduceDense allreduceVal
  rw [getD_map_dense]
  simp only [mpiAllreduce, List.map_map, List.length_map]
  have hmaps : (List.replicate n (List.replicate shape (0:ℚ))).map (denseOf ∘ TensorV.dense)
      = List.replicate n (List.replicate shape 0) := by
    simp [Function.comp_def, denseOf]
  rw [hmaps, sumVec_replicate_zero n shape hn0]
  simp [denseOf, List.map_replicate]

/-- Witness for C10: two ranks with nonzero first-step local gradients
still yield the all-zero reduced gradient at step 1. -/
theorem deferred_first_step_zero_witness :
    (deferredTrace 2 3 [[[(5:ℚ), 6, 7], [8, 9, 10]]]).returned.getD 0 []
      = List.replicate 3 0 :=
  deferred_first_step_zero 2 3 [[[(5:ℚ), 6, 7], [8, 9, 10]]] (by norm_num)
    (by simp) (by rfl)

end Horovod
